import Mathlib

/-!
# Verification of the go-oms memory-mapped MPSC order queue

Shallow embedding of the repository's order-management transport layer:
the fixed-layout `Order` record and its byte codec, the MPSC ring-buffer
protocol (sequential functional form and an interleaved step relation),
the shared-region open/create surface, and the in-repo producer harnesses
(`main.go` testBatch, `part_000`, `part_001`, `cmd/perf3/perf_cont.go`).

The `oms/queue` package itself is not part of the source tree; only its
callers are.  Definitions for that package are therefore modelled from the
specification (each such definition's doc comment says so); the harnesses
are translated directly from the Go sources.
-/

namespace OmsQueue

/-- The order record, translated from the `queue.Order` struct as used by
every harness in the repository (`main.go`, `part_000`, `part_001`,
`cmd/perf3/perf_cont.go`): fields OrderID (u64), ClientID (u32),
Quantity (u32), Price (u64), Side (u8), Status (u8), Symbol (8 bytes),
Timestamp (u64).  Machine integers are represented as `Nat` with explicit
width bounds in `ValidOrder`; the symbol is the list of its 8 bytes. -/
structure Order where
  OrderID : Nat
  ClientID : Nat
  Quantity : Nat
  Price : Nat
  Side : Nat
  Status : Nat
  Symbol : List Nat
  Timestamp : Nat
  deriving DecidableEq, Repr

/-- The all-zero order, the value a zero-initialised slot holds. -/
def zeroOrder : Order :=
  { OrderID := 0, ClientID := 0, Quantity := 0, Price := 0, Side := 0,
    Status := 0, Symbol := List.replicate 8 0, Timestamp := 0 }

instance : Inhabited Order := ⟨zeroOrder⟩

/-- Width bounds under which an `Order` is a valid instance of the wire
record: each integer field fits its declared width and the symbol is
exactly 8 bytes. -/
def ValidOrder (o : Order) : Prop :=
  o.OrderID < 2 ^ 64 ∧ o.ClientID < 2 ^ 32 ∧ o.Quantity < 2 ^ 32 ∧
  o.Price < 2 ^ 64 ∧ o.Side < 2 ^ 8 ∧ o.Status < 2 ^ 8 ∧
  o.Symbol.length = 8 ∧ (∀ b ∈ o.Symbol, b < 2 ^ 8) ∧ o.Timestamp < 2 ^ 64

instance (o : Order) : Decidable (ValidOrder o) := by
  unfold ValidOrder; infer_instance

/-- Little-endian encoding of `n` into `w` bytes. -/
def toLE : Nat → Nat → List Nat
  | 0, _ => []
  | w + 1, n => n % 256 :: toLE w (n / 256)

/-- Little-endian decoding of a byte list. -/
def fromLE : List Nat → Nat
  | [] => 0
  | b :: bs => b + 256 * fromLE bs

theorem toLE_length (w n : Nat) : (toLE w n).length = w := by
  induction w generalizing n with
  | zero => rfl
  | succ w ih => simp [toLE, ih]

theorem fromLE_toLE (w n : Nat) (h : n < 256 ^ w) : fromLE (toLE w n) = n := by
  induction w generalizing n with
  | zero => simp [toLE, fromLE]; omega
  | succ w ih =>
      have hdiv : n / 256 < 256 ^ w := by
        have h256 : (0:Nat) < 256 := by norm_num
        rw [Nat.div_lt_iff_lt_mul h256]
        calc n < 256 ^ (w + 1) := h
          _ = 256 ^ w * 256 := by ring
      simp only [toLE, fromLE, ih (n / 256) hdiv]
      omega

/-- Modelled from the spec: the Order Record Codec's `encode`
("encode(Order) → fixed N-byte sequence"; the implementation lives in the
absent `oms/queue` package).  The layout is the struct's declared field
order with explicit widths and no padding, little-endian:
OrderID (8) ++ ClientID (4) ++ Quantity (4) ++ Price (8) ++ Side (1) ++
Status (1) ++ Symbol (8) ++ Timestamp (8), 42 bytes in all. -/
def encode (o : Order) : List Nat :=
  toLE 8 o.OrderID ++ toLE 4 o.ClientID ++ toLE 4 o.Quantity ++
  toLE 8 o.Price ++ toLE 1 o.Side ++ toLE 1 o.Status ++
  o.Symbol ++ toLE 8 o.Timestamp

/-- Modelled from the spec: the Order Record Codec's `decode`
("decode(bytes) → Order, total inverse of encode"), reading the same
fixed offsets `encode` writes. -/
def decode (bs : List Nat) : Order :=
  { OrderID := fromLE ((bs.drop 0).take 8)
    ClientID := fromLE ((bs.drop 8).take 4)
    Quantity := fromLE ((bs.drop 12).take 4)
    Price := fromLE ((bs.drop 16).take 8)
    Side := fromLE ((bs.drop 24).take 1)
    Status := fromLE ((bs.drop 25).take 1)
    Symbol := (bs.drop 26).take 8
    Timestamp := fromLE ((bs.drop 34).take 8) }

/-- The symbol-filling loop of `testBatch` / `testContinuousStream`
(`main.go`): starting from a zeroed 8-byte array, copy the first
`min name.length 8` bytes of the instrument name; the remaining bytes stay
zero.  For a name of at most 8 bytes this is the name followed by zero
padding. -/
def copySymbol (name : List Nat) : List Nat :=
  name.take 8 ++ List.replicate (8 - min name.length 8) 0

/-- A byte list is a zero-padded 8-byte symbol: some instrument name of at
most 8 bytes followed by zero bytes up to length 8. -/
def ZeroPadded8 (s : List Nat) : Prop :=
  ∃ name : List Nat, name.length ≤ 8 ∧ s = name ++ List.replicate (8 - name.length) 0

theorem encode_length (o : Order) (h : o.Symbol.length = 8) :
    (encode o).length = 42 := by
  simp [encode, toLE_length, h]

theorem copySymbol_length (name : List Nat) : (copySymbol name).length = 8 := by
  simp [copySymbol]
  omega

theorem copySymbol_zeroPadded (name : List Nat) (h : name.length ≤ 8) :
    copySymbol name = name ++ List.replicate (8 - name.length) 0 := by
  simp [copySymbol, List.take_of_length_le h, Nat.min_eq_left h]

theorem fromLE_toLE64 (n : Nat) (h : n < 2 ^ 64) : fromLE (toLE 8 n) = n :=
  fromLE_toLE 8 n (by norm_num at h ⊢; omega)

theorem fromLE_toLE32 (n : Nat) (h : n < 2 ^ 32) : fromLE (toLE 4 n) = n :=
  fromLE_toLE 4 n (by norm_num at h ⊢; omega)

theorem fromLE_toLE8 (n : Nat) (h : n < 2 ^ 8) : fromLE (toLE 1 n) = n :=
  fromLE_toLE 1 n (by norm_num at h ⊢; omega)

theorem decode_encode (o : Order) (h : ValidOrder o) : decode (encode o) = o := by
  obtain ⟨oid, cid, qty, pr, sd, stt, sym, ts⟩ := o
  obtain ⟨h1, h2, h3, h4, h5, h6, h7, h8, h9⟩ := h
  simp only at h1 h2 h3 h4 h5 h6 h7 h8 h9
  set bs := encode ⟨oid, cid, qty, pr, sd, stt, sym, ts⟩ with hbs
  have d8 : bs.drop 8 = toLE 4 cid ++ (toLE 4 qty ++ (toLE 8 pr ++
      (toLE 1 sd ++ (toLE 1 stt ++ (sym ++ toLE 8 ts))))) := by
    rw [hbs]; exact List.drop_left' (toLE_length 8 oid)
  have d12 : bs.drop 12 = toLE 4 qty ++ (toLE 8 pr ++
      (toLE 1 sd ++ (toLE 1 stt ++ (sym ++ toLE 8 ts)))) := by
    have h' : (bs.drop 8).drop 4 = toLE 4 qty ++ (toLE 8 pr ++
        (toLE 1 sd ++ (toLE 1 stt ++ (sym ++ toLE 8 ts)))) := by
      rw [d8]; exact List.drop_left' (toLE_length 4 cid)
    rwa [List.drop_drop] at h'
  have d16 : bs.drop 16 = toLE 8 pr ++
      (toLE 1 sd ++ (toLE 1 stt ++ (sym ++ toLE 8 ts))) := by
    have h' : (bs.drop 12).drop 4 = toLE 8 pr ++
        (toLE 1 sd ++ (toLE 1 stt ++ (sym ++ toLE 8 ts))) := by
      rw [d12]; exact List.drop_left' (toLE_length 4 qty)
    rwa [List.drop_drop] at h'
  have d24 : bs.drop 24 = toLE 1 sd ++ (toLE 1 stt ++ (sym ++ toLE 8 ts)) := by
    have h' : (bs.drop 16).drop 8 = toLE 1 sd ++
        (toLE 1 stt ++ (sym ++ toLE 8 ts)) := by
      rw [d16]; exact List.drop_left' (toLE_length 8 pr)
    rwa [List.drop_drop] at h'
  have d25 : bs.drop 25 = toLE 1 stt ++ (sym ++ toLE 8 ts) := by
    have h' : (bs.drop 24).drop 1 = toLE 1 stt ++ (sym ++ toLE 8 ts) := by
      rw [d24]; exact List.drop_left' (toLE_length 1 sd)
    rwa [List.drop_drop] at h'
  have d26 : bs.drop 26 = sym ++ toLE 8 ts := by
    have h' : (bs.drop 25).drop 1 = sym ++ toLE 8 ts := by
      rw [d25]; exact List.drop_left' (toLE_length 1 stt)
    rwa [List.drop_drop] at h'
  have d34 : bs.drop 34 = toLE 8 ts := by
    have h' : (bs.drop 26).drop 8 = toLE 8 ts := by
      rw [d26]; exact List.drop_left' h7
    rwa [List.drop_drop] at h'
  simp only [decode, Order.mk.injEq, List.drop_zero]
  refine ⟨?_, ?_, ?_, ?_, ?_, ?_, ?_, ?_⟩
  · rw [hbs, show encode ⟨oid, cid, qty, pr, sd, stt, sym, ts⟩ =
      toLE 8 oid ++ (toLE 4 cid ++ (toLE 4 qty ++ (toLE 8 pr ++
      (toLE 1 sd ++ (toLE 1 stt ++ (sym ++ toLE 8 ts)))))) from rfl,
      List.take_left' (toLE_length 8 oid)]
    exact fromLE_toLE64 oid h1
  · rw [d8, List.take_left' (toLE_length 4 cid)]
    exact fromLE_toLE32 cid h2
  · rw [d12, List.take_left' (toLE_length 4 qty)]
    exact fromLE_toLE32 qty h3
  · rw [d16, List.take_left' (toLE_length 8 pr)]
    exact fromLE_toLE64 pr h4
  · rw [d24, List.take_left' (toLE_length 1 sd)]
    exact fromLE_toLE8 sd h5
  · rw [d25, List.take_left' (toLE_length 1 stt)]
    exact fromLE_toLE8 stt h6
  · rw [d26, List.take_left' h7]
  · rw [d34, List.take_of_length_le (by rw [toLE_length])]
    exact fromLE_toLE64 ts h9

/-! ## The MPSC ring buffer, sequential functional form

Modelled from the spec (§4.3); the implementing `oms/queue` package is not
in the source tree.  `seqs i` is slot `i`'s sequence number, `vals i` its
payload; `tail` is the shared claim counter and `head` the consumer's local
read cursor, both monotonically increasing and never wrapping.  The spec's
claim step (fetch-and-increment, then check the slot) is modelled as an
atomic check-and-claim that advances `tail` only when the slot check
succeeds: under an unconditional increment a `QueueFull` return would
permanently burn its claim position, contradicting §7 ("always recoverable
by retrying later") and §8's capacity-bound property, so the counter must
advance only on success.  The §4.3 payload-write-before-seq publish
barrier makes payload write plus seq update one atomic publish from every
other process's view, which is how it is rendered here.  The consumer's
slot reset uses the spec's "resets `seq` to `i + C` … owned by the producer
that will claim global position `i + C`" generalised to the consumed
position plus `C` (the variant reading "head + 1 + C" in §4.3 step 3 would
contradict that sentence and §8's concrete scenario). -/

/-- Modelled from the spec: the queue handle over the shared region —
capacity, shared tail counter, the consumer's local head counter, and the
slot array (sequence numbers and payloads). -/
structure Queue where
  cap : Nat
  tail : Nat
  head : Nat
  seqs : Nat → Nat
  vals : Nat → Order

/-- Modelled from the spec: the state `create` establishes — both counters
zero, each slot's sequence number initialised to its own index, payloads
zero-filled. -/
def initQueue (C : Nat) : Queue :=
  { cap := C, tail := 0, head := 0, seqs := fun i => i, vals := fun _ => zeroOrder }

/-- Result signal of `Enqueue`: success, or `QueueFull` backpressure. -/
inductive EnqueueResult where
  | ok
  | queueFull
  deriving DecidableEq, Repr

/-- Modelled from the spec: producer-side `enqueue` (§4.3).  The claim
position is the shared tail counter; if the target slot's sequence number
has not reached that position's generation the ring is full and the state
is unchanged (no internal retry or blocking); otherwise the payload is
written and the slot published by setting its sequence number to
`pos + 1`. -/
def Enqueue (q : Queue) (o : Order) : EnqueueResult × Queue :=
  if q.seqs (q.tail % q.cap) = q.tail then
    (.ok,
      { q with
        tail := q.tail + 1
        seqs := fun i => if i = q.tail % q.cap then q.tail + 1 else q.seqs i
        vals := fun i => if i = q.tail % q.cap then o else q.vals i })
  else (.queueFull, q)

/-- Modelled from the spec: consumer-side `dequeue` (§4.3).  If the head
slot is not yet published the consumer must wait (`none` is one round of
its spin); otherwise the payload is copied out, the slot re-armed for the
next wraparound, and the local head counter advanced. -/
def Dequeue (q : Queue) : Option Order × Queue :=
  if q.seqs (q.head % q.cap) = q.head + 1 then
    (some (q.vals (q.head % q.cap)),
      { q with
        head := q.head + 1
        seqs := fun i => if i = q.head % q.cap then q.head + q.cap else q.seqs i })
  else (none, q)

/-- Modelled from the spec: `depth()` = tail − head clamped to
`[0, capacity]`. -/
def Depth (q : Queue) : Nat :=
  min (q.tail - q.head) q.cap

/-- Enqueue a list of orders in sequence, collecting each call's result. -/
def enqueueList : Queue → List Order → Queue × List EnqueueResult
  | q, [] => (q, [])
  | q, o :: os =>
      let step := Enqueue q o
      let rest := enqueueList step.2 os
      (rest.1, step.1 :: rest.2)

/-- Dequeue `n` times in sequence, collecting each call's result. -/
def dequeueList : Queue → Nat → List (Option Order)
  | _, 0 => []
  | q, n + 1 =>
      let d := Dequeue q
      d.1 :: dequeueList d.2 n

/-- An order that differs only by id, as the §8 scenario uses. -/
def mkOrder (id : Nat) : Order :=
  { zeroOrder with OrderID := id }

/-- State reached after the first `k` of the orders `os` have been enqueued
into a fresh queue of capacity `C` with no consumption: tail is `k`, the
first `k` slots are published and hold the orders, the rest are still in
their initial generation. -/
def FillInv (C : Nat) (os : List Order) (k : Nat) (q : Queue) : Prop :=
  q.cap = C ∧ q.tail = k ∧ q.head = 0 ∧ k ≤ C ∧
  (∀ i, i < C → q.seqs i = if i < k then i + 1 else i) ∧
  (∀ i, i < k → q.vals i = os.getD i zeroOrder)

theorem initQueue_fillInv (C : Nat) (os : List Order) :
    FillInv C os 0 (initQueue C) := by
  refine ⟨rfl, rfl, rfl, Nat.zero_le C, ?_, ?_⟩
  · intro i _; simp [initQueue]
  · intro i hi; omega

theorem enqueue_fill_step (C : Nat) (os : List Order) (k : Nat) (q : Queue)
    (h : FillInv C os k q) (hk : k < C) :
    (Enqueue q (os.getD k zeroOrder)).1 = EnqueueResult.ok ∧
    FillInv C os (k + 1) (Enqueue q (os.getD k zeroOrder)).2 := by
  obtain ⟨hcap, htail, hhead, hkC, hseqs, hvals⟩ := h
  have hmod : q.tail % q.cap = k := by
    rw [htail, hcap]; exact Nat.mod_eq_of_lt hk
  have hready : q.seqs (q.tail % q.cap) = q.tail := by
    rw [hmod, htail, hseqs k hk]; simp
  rw [Enqueue, if_pos hready]
  refine ⟨rfl, hcap, by simp [htail], hhead, hk, ?_, ?_⟩
  · intro i hi
    simp only [hmod]
    simp only [htail]
    by_cases hik : i = k
    · rw [if_pos hik, if_pos (by omega)]; omega
    · rw [if_neg hik, hseqs i hi]
      rcases Nat.lt_trichotomy i k with h' | h' | h'
      · rw [if_pos h', if_pos (by omega)]
      · exact absurd h' hik
      · rw [if_neg (by omega), if_neg (by omega)]
  · intro i hi
    simp only [hmod]
    by_cases hik : i = k
    · rw [if_pos hik, hik]
    · rw [if_neg hik]
      exact hvals i (by omega)

theorem enqueueList_fill (C : Nat) (os : List Order) :
    ∀ (rest : List Order) (k : Nat) (q : Queue),
      FillInv C os k q → os.drop k = rest → k + rest.length ≤ C →
      (∀ r ∈ (enqueueList q rest).2, r = EnqueueResult.ok) ∧
      FillInv C os (k + rest.length) (enqueueList q rest).1 := by
  intro rest
  induction rest with
  | nil =>
      intro k q hinv _ _
      exact ⟨by intro r hr; simp [enqueueList] at hr, by simpa using hinv⟩
  | cons o rest ih =>
      intro k q hinv hdrop hlen
      have hko : os.getD k zeroOrder = o := by
        have h0 : (os.drop k)[0]? = some o := by rw [hdrop]; simp
        rw [List.getElem?_drop] at h0
        simp only [Nat.add_zero] at h0
        simp [List.getD, h0]
      have hstep := enqueue_fill_step C os k q hinv (by simp at hlen; omega)
      rw [hko] at hstep
      obtain ⟨hok, hinv'⟩ := hstep
      have hdrop' : os.drop (k + 1) = rest := by
        have h1 : (os.drop k).drop 1 = os.drop (k + 1) := List.drop_drop 1 k os
        rw [hdrop] at h1
        simpa using h1.symm
      have hrec := ih (k + 1) (Enqueue q o).2 hinv' hdrop' (by simp at hlen ⊢; omega)
      simp only [enqueueList]
      constructor
      · intro r hr
        simp only [List.mem_cons] at hr
        rcases hr with hr | hr
        · rw [hr]; exact hok
        · exact hrec.1 r hr
      · have : k + (rest.length + 1) = k + 1 + rest.length := by omega
        rw [List.length_cons, this]
        exact hrec.2

theorem fill_cycle (C : Nat) (os : List Order) (q : Queue) (o : Order)
    (hC : 2 ≤ C) (h : FillInv C os C q) :
    (Enqueue q o).1 = EnqueueResult.queueFull ∧
    (Enqueue q o).2 = q ∧
    (Dequeue q).1 = some (os.getD 0 zeroOrder) ∧
    (Enqueue (Dequeue q).2 o).1 = EnqueueResult.ok := by
  obtain ⟨hcap, htail, hhead, _, hseqs, hvals⟩ := h
  have hmod : q.tail % q.cap = 0 := by rw [htail, hcap]; exact Nat.mod_self C
  have hs0 : q.seqs 0 = 1 := by
    have h0 := hseqs 0 (by omega)
    rw [if_pos (by omega)] at h0
    exact h0
  have hfull : ¬q.seqs (q.tail % q.cap) = q.tail := by
    rw [hmod, hs0, htail]; omega
  have hmod0 : q.head % q.cap = 0 := by rw [hhead]; simp
  have hd : q.seqs (q.head % q.cap) = q.head + 1 := by
    rw [hmod0, hs0, hhead]
  refine ⟨?_, ?_, ?_, ?_⟩
  · rw [Enqueue, if_neg hfull]
  · rw [Enqueue, if_neg hfull]
  · rw [Dequeue, if_pos hd, hmod0]
    rw [hvals 0 (by omega)]
  · rw [Dequeue, if_pos hd]
    rw [Enqueue]
    rw [if_pos ?_]
    simp only [hmod0, hcap, htail, hhead]
    simp [Nat.mod_self]

/-! ## The MPSC protocol as an interleaved transition system

Modelled from the spec (§4.3, §5): any number of producer processes and
the single consumer act on the shared region in arbitrary interleaving.
A producer's enqueue is two transitions — the atomic claim of a position
from the shared tail counter, and later the publish of the claimed slot
(payload write plus sequence-number release store, one atomic event to
every observer thanks to the §4.3 publish barrier); a producer may stall
arbitrarily long between the two, and a full check is a transition that
changes nothing.  `pending` holds the claimed-but-unpublished positions
with their payloads; which producer holds a claim is irrelevant to the
transitions, so producers are left anonymous.  `log` is the ghost list of
orders in claim-position order (`log[pos]` = the order claimed at `pos`)
and `observed` the ghost list of records the consumer has delivered. -/

structure MState where
  tail : Nat
  head : Nat
  seqs : Nat → Nat
  vals : Nat → Order
  pending : List (Nat × Order)
  log : List Order
  observed : List Order

/-- The freshly created shared region (§4.2): counters zero, slot `i`'s
sequence number `i`, payloads zero-filled, nothing claimed. -/
def minit : MState :=
  { tail := 0, head := 0, seqs := fun i => i, vals := fun _ => zeroOrder,
    pending := [], log := [], observed := [] }

/-- One transition of the shared region with capacity `C`, by any producer
or the consumer. -/
inductive MStep (C : Nat) : MState → MState → Prop where
  | claim (s : MState) (o : Order)
      (hready : s.seqs (s.tail % C) = s.tail) :
      MStep C s { s with
        tail := s.tail + 1
        pending := (s.tail, o) :: s.pending
        log := s.log ++ [o] }
  | publish (s : MState) (pos : Nat) (o : Order)
      (hmem : (pos, o) ∈ s.pending) (hseq : s.seqs (pos % C) = pos) :
      MStep C s { s with
        seqs := fun i => if i = pos % C then pos + 1 else s.seqs i
        vals := fun i => if i = pos % C then o else s.vals i
        pending := s.pending.erase (pos, o) }
  | enqueueFull (s : MState)
      (hfull : s.seqs (s.tail % C) ≠ s.tail) :
      MStep C s s
  | consume (s : MState)
      (hready : s.seqs (s.head % C) = s.head + 1) :
      MStep C s { s with
        head := s.head + 1
        seqs := fun i => if i = s.head % C then s.head + C else s.seqs i
        observed := s.observed ++ [s.vals (s.head % C)] }

/-- States the queue can reach from creation under any interleaving. -/
def MReach (C : Nat) (s : MState) : Prop :=
  Relation.ReflTransGen (MStep C) minit s

/-- Per-slot characterisation: slot `i` is either armed for the producer
that will claim position `pos` (sequence number `pos`), or published at
position `pos` (sequence number `pos + 1`) holding the order claimed at
`pos`, with no claim on `pos` still pending. -/
def SlotOK (C : Nat) (s : MState) (i : Nat) : Prop :=
  (∃ pos, pos % C = i ∧ s.seqs i = pos ∧ s.head ≤ pos) ∨
  (∃ pos, pos % C = i ∧ s.seqs i = pos + 1 ∧ s.head ≤ pos ∧ pos < s.tail ∧
    s.vals i = s.log.getD pos zeroOrder ∧ ∀ o, (pos, o) ∉ s.pending)

/-- The inductive invariant of the MPSC protocol. -/
def MInv (C : Nat) (s : MState) : Prop :=
  s.log.length = s.tail ∧
  s.head ≤ s.tail ∧
  s.observed = s.log.take s.head ∧
  (∀ p ∈ s.pending, s.head ≤ p.1 ∧ p.1 < s.tail ∧ s.log.getD p.1 zeroOrder = p.2) ∧
  (s.pending.map Prod.fst).Nodup ∧
  (∀ i, i < C → SlotOK C s i)

theorem minit_inv (C : Nat) : MInv C minit := by
  refine ⟨rfl, le_refl 0, rfl, ?_, List.nodup_nil, ?_⟩
  · intro p hp; simp [minit] at hp
  · intro i hi
    exact Or.inl ⟨i, Nat.mod_eq_of_lt hi, rfl, Nat.zero_le i⟩

theorem succ_mod_ne (a C : Nat) (hC : 2 ≤ C) : (a + 1) % C ≠ a % C := by
  have h1 : (a + 1) % C = (a % C + 1) % C := by
    conv_lhs => rw [Nat.add_mod, Nat.mod_eq_of_lt (show 1 < C by omega)]
  have hlt : a % C < C := Nat.mod_lt a (by omega)
  rcases Nat.lt_or_ge (a % C + 1) C with h | h
  · rw [h1, Nat.mod_eq_of_lt h]; omega
  · have he : a % C + 1 = C := by omega
    rw [h1, he, Nat.mod_self]
    omega

theorem nodup_fst_not_mem_erase {l : List (Nat × Order)} {pos : Nat} {o o' : Order}
    (hnd : (l.map Prod.fst).Nodup) (hmem : (pos, o) ∈ l) :
    (pos, o') ∉ l.erase (pos, o) := by
  induction l with
  | nil => simp
  | cons hd tl ih =>
      simp only [List.map_cons, List.nodup_cons] at hnd
      by_cases hhd : hd = (pos, o)
      · rw [hhd, List.erase_cons_head]
        intro hmem'
        have hp : pos ∈ List.map Prod.fst tl := List.mem_map_of_mem Prod.fst hmem'
        exact (hhd ▸ hnd.1) hp
      · have hmem2 : (pos, o) ∈ tl := by
          rcases List.mem_cons.mp hmem with h2 | h2
          · exact absurd h2.symm hhd
          · exact h2
        rw [List.erase_cons_tail (by simp [hhd])]
        intro hmem'
        rcases List.mem_cons.mp hmem' with h | h
        · have hfst : hd.1 = pos := by rw [← h]
          exact hnd.1 (hfst ▸ List.mem_map_of_mem Prod.fst hmem2)
        · exact ih hnd.2 hmem2 h

theorem take_append_of_le {α : Type} (l l2 : List α) (n : Nat) (h : n ≤ l.length) :
    (l ++ l2).take n = l.take n := by
  rw [List.take_append_eq_append_take, Nat.sub_eq_zero_of_le h]
  simp

theorem getD_concat (l : List Order) (o : Order) :
    (l ++ [o]).getD l.length zeroOrder = o := by
  rw [List.getD_eq_getElem?_getD, List.getElem?_concat_length]
  rfl

theorem take_succ_getD (l : List Order) (n : Nat) (h : n < l.length) :
    l.take (n + 1) = l.take n ++ [l.getD n zeroOrder] := by
  have hx : l[n]? = some (l.getD n zeroOrder) := by
    rw [List.getElem?_eq_getElem h, List.getD_eq_getElem?_getD,
      List.getElem?_eq_getElem h]
    rfl
  rw [List.take_succ, hx]
  rfl

theorem minv_claim (C : Nat) (s : MState) (o : Order) (hinv : MInv C s) :
    MInv C { s with
      tail := s.tail + 1
      pending := (s.tail, o) :: s.pending
      log := s.log ++ [o] } := by
  obtain ⟨hlen, hht, hobs, hpend, hnd, hslots⟩ := hinv
  refine ⟨by simp [hlen], by dsimp only; omega, ?_, ?_, ?_, ?_⟩
  · dsimp only
    rw [take_append_of_le s.log [o] s.head (by omega), hobs]
  · dsimp only
    intro p hp
    rcases List.mem_cons.mp hp with h | h
    · rw [h]
      refine ⟨hht, by omega, ?_⟩
      have := getD_concat s.log o
      rw [hlen] at this
      exact this
    · obtain ⟨h1, h2, h3⟩ := hpend p h
      exact ⟨h1, by omega, by rw [List.getD_append _ _ _ _ (by omega), h3]⟩
  · dsimp only
    rw [List.map_cons, List.nodup_cons]
    refine ⟨?_, hnd⟩
    intro hmem
    obtain ⟨p, hp, hfst⟩ := List.mem_map.mp hmem
    have := (hpend p hp).2.1
    omega
  · intro i hi
    rcases hslots i hi with ⟨pos, h1, h2, h3⟩ | ⟨pos, h1, h2, h3, h4, h5, h6⟩
    · exact Or.inl ⟨pos, h1, h2, h3⟩
    · refine Or.inr ⟨pos, h1, h2, h3, by dsimp only; omega, ?_, ?_⟩
      · dsimp only
        rw [List.getD_append _ _ _ _ (by omega), h5]
      · dsimp only
        intro o' hmem
        rcases List.mem_cons.mp hmem with h | h
        · have : pos = s.tail := congrArg Prod.fst h
          omega
        · exact h6 o' h

theorem minv_publish (C : Nat) (s : MState) (pos : Nat) (o : Order)
    (hmem : (pos, o) ∈ s.pending) (hinv : MInv C s) :
    MInv C { s with
      seqs := fun i => if i = pos % C then pos + 1 else s.seqs i
      vals := fun i => if i = pos % C then o else s.vals i
      pending := s.pending.erase (pos, o) } := by
  obtain ⟨hlen, hht, hobs, hpend, hnd, hslots⟩ := hinv
  refine ⟨hlen, hht, hobs, ?_, ?_, ?_⟩
  · dsimp only
    intro p hp
    exact hpend p (List.mem_of_mem_erase hp)
  · dsimp only
    exact hnd.sublist (List.Sublist.map _ (List.erase_sublist _ _))
  · intro i hi
    by_cases hij : i = pos % C
    · obtain ⟨hp1, hp2, hp3⟩ := hpend (pos, o) hmem
      refine Or.inr ⟨pos, hij.symm, ?_, hp1, hp2, ?_, ?_⟩
      · dsimp only
        rw [if_pos hij]
      · dsimp only
        rw [if_pos hij, hp3]
      · dsimp only
        intro o' hmem'
        exact nodup_fst_not_mem_erase hnd hmem hmem'
    · rcases hslots i hi with ⟨q, h1, h2, h3⟩ | ⟨q, h1, h2, h3, h4, h5, h6⟩
      · refine Or.inl ⟨q, h1, ?_, h3⟩
        dsimp only
        rw [if_neg hij]
        exact h2
      · refine Or.inr ⟨q, h1, ?_, h3, h4, ?_, ?_⟩
        · dsimp only
          rw [if_neg hij]
          exact h2
        · dsimp only
          rw [if_neg hij]
          exact h5
        · dsimp only
          intro o' hmem'
          exact h6 o' (List.mem_of_mem_erase hmem')

theorem minv_consume (C : Nat) (hC : 2 ≤ C) (s : MState)
    (hready : s.seqs (s.head % C) = s.head + 1) (hinv : MInv C s) :
    MInv C { s with
      head := s.head + 1
      seqs := fun i => if i = s.head % C then s.head + C else s.seqs i
      observed := s.observed ++ [s.vals (s.head % C)] } := by
  obtain ⟨hlen, hht, hobs, hpend, hnd, hslots⟩ := hinv
  have hjC : s.head % C < C := Nat.mod_lt _ (by omega)
  have hslot := hslots (s.head % C) hjC
  have hB : s.head < s.tail ∧
      s.vals (s.head % C) = s.log.getD s.head zeroOrder ∧
      ∀ o, (s.head, o) ∉ s.pending := by
    rcases hslot with ⟨q, h1, h2, h3⟩ | ⟨q, h1, h2, h3, h4, h5, h6⟩
    · rw [hready] at h2
      have : (s.head + 1) % C = s.head % C := by rw [h2]; exact h1
      exact absurd this (succ_mod_ne s.head C hC)
    · rw [hready] at h2
      have hq : q = s.head := by omega
      rw [hq] at h4 h5 h6
      exact ⟨h4, h5, h6⟩
  obtain ⟨hlt, hval, hnp⟩ := hB
  refine ⟨hlen, by dsimp only; omega, ?_, ?_, hnd, ?_⟩
  · dsimp only
    rw [hobs, hval, take_succ_getD s.log s.head (by omega)]
  · dsimp only
    intro p hp
    obtain ⟨h1, h2, h3⟩ := hpend p hp
    refine ⟨?_, h2, h3⟩
    rcases Nat.lt_or_ge s.head p.1 with h | h
    · omega
    · have hph : p.1 = s.head := by omega
      have : (s.head, p.2) ∈ s.pending := by
        rw [← hph]
        exact hp
      exact absurd this (hnp p.2)
  · intro i hi
    by_cases hij : i = s.head % C
    · refine Or.inl ⟨s.head + C, ?_, ?_, ?_⟩
      · rw [Nat.add_mod_right, hij]
      · dsimp only
        rw [if_pos hij]
      · dsimp only
        omega
    · have hqne : ∀ q : Nat, q % C = i → q ≠ s.head := by
        intro q hq hcontra
        rw [hcontra] at hq
        exact hij hq.symm
      rcases hslots i hi with ⟨q, h1, h2, h3⟩ | ⟨q, h1, h2, h3, h4, h5, h6⟩
      · refine Or.inl ⟨q, h1, ?_, ?_⟩
        · dsimp only
          rw [if_neg hij]
          exact h2
        · dsimp only
          have := hqne q h1
          omega
      · refine Or.inr ⟨q, h1, ?_, ?_, h4, h5, h6⟩
        · dsimp only
          rw [if_neg hij]
          exact h2
        · dsimp only
          have := hqne q h1
          omega

theorem mstep_inv (C : Nat) (hC : 2 ≤ C) {s s' : MState}
    (hstep : MStep C s s') (hinv : MInv C s) : MInv C s' := by
  cases hstep with
  | claim o hready => exact minv_claim C s o hinv
  | publish pos o hmem hseq => exact minv_publish C s pos o hmem hinv
  | enqueueFull hfull => exact hinv
  | consume hready => exact minv_consume C hC s hready hinv

theorem mreach_inv (C : Nat) (hC : 2 ≤ C) (s : MState) (h : MReach C s) :
    MInv C s := by
  induction h with
  | refl => exact minit_inv C
  | tail _ hstep ih => exact mstep_inv C hC hstep ih

/-! ## Producer harnesses, translated from the Go sources

Wall-clock readings are abstracted as a function `clock : Nat → Nat`
giving the nanosecond reading taken at each loop iteration. -/

/-- The byte list of an instrument name: KOHLI. -/
def symKOHLI : List Nat := [75, 79, 72, 76, 73]

/-- The symbol byte literal `[8]byte{'K','O','H','L','I',0,0,0}` that
`main.go` (`testSingleOrder`) and `part_000` write. -/
def kohliPadded : List Nat := [75, 79, 72, 76, 73, 0, 0, 0]

/-- The `symbols` slice of `testBatch` (`main.go`): KOHLI, ROHIT, DHONI,
as byte lists. -/
def batchSymbols : List (List Nat) :=
  [[75, 79, 72, 76, 73], [82, 79, 72, 73, 84], [68, 72, 79, 78, 73]]

/-- The `symbols` slice of `testContinuousStream` (`main.go`): KOHLI,
ROHIT, DHONI, SMITH, WARNER, as byte lists. -/
def streamSymbols : List (List Nat) :=
  [[75, 79, 72, 76, 73], [82, 79, 72, 73, 84], [68, 72, 79, 78, 73],
   [83, 77, 73, 84, 72], [87, 65, 82, 78, 69, 82]]

/-- The single order `testSingleOrder` (`main.go`) sends. -/
def testSingleOrderValue (now : Nat) : Order :=
  { OrderID := 1, ClientID := 1001, Symbol := kohliPadded, Quantity := 100,
    Price := 50000, Side := 0, Timestamp := now, Status := 0 }

/-- The timestamp `part_000` stamps on the order of iteration `k`
(0-based): the loop re-reads the clock only when `updateTick % 10000 == 0`
(and `updateTick` equals the iteration index at the top of the loop),
otherwise the previous reading is reused.  The pre-loop reading is
immediately overwritten at iteration 0. -/
def part000Ts (clock : Nat → Nat) : Nat → Nat
  | 0 => clock 0
  | k + 1 => if (k + 1) % 10000 = 0 then clock (k + 1) else part000Ts clock k

/-- The order `part_000` enqueues at iteration `k` (0-based): `count` is
`k + 1` and becomes the OrderID; the other fields are the fixed template
(ClientID 1001, Quantity 100, Price 50000, buy, KOHLI); the inner retry
loop repeats the same order until `Enqueue` succeeds, so this is also the
`k`-th order actually placed in the queue. -/
def part000Order (clock : Nat → Nat) (k : Nat) : Order :=
  { OrderID := k + 1, ClientID := 1001, Quantity := 100, Price := 50000,
    Side := 0, Status := 0, Symbol := kohliPadded,
    Timestamp := part000Ts clock k }

/-- The order `part_001` enqueues at iteration `k` (0-based): `count` is
`k + 1`; side alternates with `count % 2`; `order.Symbol = 0` assigns the
numeric zero value, i.e. eight zero bytes; the timestamp is re-read from
the clock every iteration. -/
def part001Order (clock : Nat → Nat) (k : Nat) : Order :=
  { OrderID := k + 1, ClientID := 1001, Quantity := 100, Price := 50000,
    Side := (k + 1) % 2, Status := 0, Symbol := List.replicate 8 0,
    Timestamp := clock k }

/-- The three concentrated price levels of `cmd/perf3/perf_cont.go`. -/
def perfPrices : List Nat := [49999, 50000, 50001]

/-- The order `cmd/perf3/perf_cont.go` enqueues at iteration `k`
(0-based): `count` is `k + 1`; side is `count % 2`; the price rotates
through the three levels with index `count / 2 % 3`; `order.Symbol = 0`
is the numeric zero value, i.e. eight zero bytes. -/
def perfContOrder (clock : Nat → Nat) (k : Nat) : Order :=
  { OrderID := k + 1, ClientID := 1001, Quantity := 100,
    Price := perfPrices.getD ((k + 1) / 2 % 3) 0,
    Side := (k + 1) % 2, Status := 0, Symbol := List.replicate 8 0,
    Timestamp := clock k }

/-- The OrderID `testContinuousStream` (`main.go`) stamps on its `n`-th
successfully sent order (0-based): `orderID` starts at 1 and is
incremented only after a successful enqueue. -/
def streamOrderID (n : Nat) : Nat := n + 1

/-- The order `testBatch` (`main.go`) builds for loop index `i`
(1-based, `1 ≤ i ≤ 100000`): id `i`, client `clients[i % 3]`, quantity
`100 + i % 900`, price `50000 + i % 5000`, side `sides[i % 2]`, symbol
`symbols[i % 3]` copied into a zeroed 8-byte array. -/
def testBatchOrder (clock : Nat → Nat) (i : Nat) : Order :=
  { OrderID := i, ClientID := [1001, 1002, 1003].getD (i % 3) 0,
    Quantity := 100 + i % 900, Price := 50000 + i % 5000,
    Side := [0, 1].getD (i % 2) 0, Status := 0,
    Symbol := copySymbol (batchSymbols.getD (i % 3) []),
    Timestamp := clock i }

/-- The per-order retry loop of `testBatch` (`main.go`): `retries` starts
at 0 with `maxRetries = 3`; a failed attempt with `retries < maxRetries`
increments `retries`, sleeps `1 << retries` milliseconds and tries again;
a failed attempt with `retries == maxRetries` abandons the order.
`ok a` tells whether the `a`-th attempt (0-based) succeeds; the structural
fuel is `maxRetries − retries`, so `retries` after a failure is
`maxRetries − fuel + 1 = maxRetries − (fuel − 1)`.  Returns (success?,
attempts made, sleep durations in ms). -/
def batchTryAux (ok : Nat → Bool) (maxRetries : Nat) (attempt : Nat) :
    Nat → Bool × Nat × List Nat
  | 0 => if ok attempt then (true, attempt + 1, []) else (false, attempt + 1, [])
  | fuel + 1 =>
      if ok attempt then (true, attempt + 1, [])
      else
        let r := batchTryAux ok maxRetries (attempt + 1) fuel
        (r.1, r.2.1, 2 ^ (maxRetries - fuel) :: r.2.2)

/-- `testBatch`'s retry loop for one order, with its constants
(`maxRetries = 3`, first attempt index 0). -/
def batchTry (ok : Nat → Bool) : Bool × Nat × List Nat :=
  batchTryAux ok 3 0 3

/-- The ids `testBatch` successfully enqueues, given a per-order,
per-attempt success oracle: loop index `i` runs over 1..100000 and the
order with id `i` survives iff its retry loop succeeds. -/
def batchSuccessIds (ok : Nat → Nat → Bool) : List Nat :=
  (List.range' 1 100000).filter (fun i => (batchTry (ok i)).1)

/-- The unbounded enqueue-retry spin of `part_000` / `part_001` /
`perf_cont.go` (`for { if err := q.Enqueue(order); err == nil { break } }`),
bounded by explicit fuel: the loop lives in the caller, the core is only
called once per round. -/
def producerRetry : Nat → Queue → Order → Option Queue
  | 0, _, _ => none
  | n + 1, q, o =>
      match Enqueue q o with
      | (.ok, q') => some q'
      | (.queueFull, q') => producerRetry n q' o

/-! ## Shared region manager

Modelled from the spec (§4.2, §6): the `oms/queue` package's
`CreateQueue`/`OpenQueue` are not in the source tree.  The header values
below are representative constants (the spec fixes their existence and
role, not their numeric values); the backing file system is abstracted as
a map from paths to the parsed header and queue state of the file found
there (`none` = no file at that path; a file whose magic region holds
garbage is a header with unrecognised fields). -/

/-- Modelled from the spec: the header magic constant (representative
value). -/
def QUEUE_MAGIC : Nat := 0x4F4D5351

/-- Modelled from the spec: the header format version (representative
value). -/
def QUEUE_VERSION : Nat := 1

/-- Modelled from the spec: the built-in slot count.  `CreateQueue` takes
no capacity argument (its call sites in `main.go` pass only the path), so
the capacity is a fixed implementation constant; the spec records only the
resulting "~3.2 MB" backing file, and this representative value stands for
the constant. -/
def QUEUE_CAPACITY : Nat := 50000

/-- Modelled from the spec: the recorded slot size — an 8-byte sequence
number plus the 42-byte encoded order. -/
def SLOT_SIZE : Nat := 50

/-- The fixed-offset header (§6): magic, version, capacity, slot size. -/
structure Header where
  magic : Nat
  version : Nat
  capacity : Nat
  slotSize : Nat
  deriving DecidableEq, Repr

/-- The header a creator writes. -/
def createdHeader : Header :=
  { magic := QUEUE_MAGIC, version := QUEUE_VERSION,
    capacity := QUEUE_CAPACITY, slotSize := SLOT_SIZE }

/-- Modelled from the spec: an opener's validation of an existing file's
header — recognised magic and version, matching capacity and slot size. -/
def validHeader (h : Header) : Bool :=
  h.magic == QUEUE_MAGIC && h.version == QUEUE_VERSION &&
  h.capacity == QUEUE_CAPACITY && h.slotSize == SLOT_SIZE

/-- Error kinds of `open` (§7). -/
inductive OpenError where
  | NotFound
  | FormatMismatch
  deriving DecidableEq, Repr

/-- Error kinds of `create` (§7). -/
inductive CreateError where
  | AlreadyExists
  | IOError
  deriving DecidableEq, Repr

/-- A file system: what (parsed header and mapped queue state) sits at
each path, if anything. -/
def FileSys : Type := String → Option (Header × Queue)

/-- Modelled from the spec: `open(path)` — `NotFound` when no file exists
at the path, `FormatMismatch` when a file exists but its header does not
validate, otherwise the mapped queue. -/
def OpenQueue (fs : FileSys) (path : String) : Except OpenError Queue :=
  match fs path with
  | none => .error .NotFound
  | some hq => if validHeader hq.1 then .ok hq.2 else .error .FormatMismatch

/-- Number of arguments queue creation takes, as fixed by its call sites:
`main.go` (`testInit`) calls `queue.CreateQueue(queueFilePath)` and
`queue.CreateQueue(queueFilePath + "_status")` — one argument, the path. -/
def CreateQueueArity : Nat := 1

/-- Parameter count of the spec's claimed creation signature
`create(path, capacity)` (definition following the spec's words, for
comparison with `CreateQueueArity`). -/
def specCreateArity : Nat := 2

/-- Modelled from the spec and the call sites: queue creation receives
only the path (no capacity argument) and initialises a queue of the fixed
built-in capacity; it fails if the path cannot be created. -/
def CreateQueue (fs : FileSys) (path : String) : Except CreateError Queue :=
  match fs path with
  | some _ => .error .AlreadyExists
  | none => .ok (initQueue QUEUE_CAPACITY)

/-! ## §8 concrete scenario states (capacity 4) -/

/-- Queue of capacity 4 after enqueuing ids 1,2,3,4. -/
def scenarioFull : Queue :=
  (enqueueList (initQueue 4) [mkOrder 1, mkOrder 2, mkOrder 3, mkOrder 4]).1

/-- …after the rejected enqueue of id 5. -/
def scenarioAfterFull : Queue := (Enqueue scenarioFull (mkOrder 5)).2

/-- …after one dequeue. -/
def scenarioAfterDeq : Queue := (Dequeue scenarioAfterFull).2

/-- …after the successful retry of id 5. -/
def scenarioAfterRetry : Queue := (Enqueue scenarioAfterDeq (mkOrder 5)).2

/-! ## Claims -/

/-- C1: for every interleaved execution of any number of producers
(claim / publish / full-report transitions) and the single consumer
(consume transitions) — i.e. every reachable state of the protocol's
transition system — the consumer's delivery sequence `observed` is exactly
the prefix up to its head counter of `log`, the list of records indexed by
the claim positions the shared tail counter assigned; a total order across
all producers, which the transitions keep anonymous. -/
theorem C1_fifo_by_claim_order (C : Nat) (hC : 2 ≤ C) (s : MState)
    (h : MReach C s) : s.observed = s.log.take s.head :=
  (mreach_inv C hC s h).2.2.1

theorem C1_fifo_by_claim_order_witness :
    2 ≤ 2 ∧ ∃ s : MState, MReach 2 s ∧ s.observed = s.log.take s.head ∧
      s.log = [mkOrder 1, mkOrder 2] ∧ s.head = 2 ∧
      s.observed = [mkOrder 1, mkOrder 2] := by
  have chain : Relation.ReflTransGen (MStep 2) minit _ :=
    Relation.ReflTransGen.head (MStep.claim minit (mkOrder 1) (by decide))
      (Relation.ReflTransGen.head (MStep.claim _ (mkOrder 2) (by decide))
      (Relation.ReflTransGen.head (MStep.publish _ 1 (mkOrder 2) (by decide) (by decide))
      (Relation.ReflTransGen.head (MStep.publish _ 0 (mkOrder 1) (by decide) (by decide))
      (Relation.ReflTransGen.head (MStep.consume _ (by decide))
      (Relation.ReflTransGen.head (MStep.consume _ (by decide))
        Relation.ReflTransGen.refl)))))
  exact ⟨by norm_num, _, chain,
    C1_fifo_by_claim_order 2 (by norm_num) _ chain, by decide, by decide, by decide⟩

/-- C2 (amended: capacity at least 2, the protocol's own minimum — with
capacity 1 a slot's published sequence number coincides with the next
claim position's expected value, so the 2nd enqueue succeeds instead of
reporting QueueFull): for every queue of capacity `C ≥ 2`, from the empty
queue each of the first `C` enqueues succeeds, the `(C+1)`-th returns
QueueFull, and after exactly one dequeue (returning the first order)
exactly one more enqueue succeeds; and the §8 capacity-4 scenario: ids
1,2,3,4 succeed, id 5 is rejected, one dequeue returns order 1, the
retried id 5 succeeds, and the four remaining dequeues return ids
2,3,4,5 in order. -/
theorem C2_capacity_bound :
    (∀ (C : Nat) (os : List Order) (o : Order), 2 ≤ C → os.length = C →
      (∀ r ∈ (enqueueList (initQueue C) os).2, r = EnqueueResult.ok) ∧
      (Enqueue (enqueueList (initQueue C) os).1 o).1 = EnqueueResult.queueFull ∧
      (Dequeue (enqueueList (initQueue C) os).1).1 = some (os.getD 0 zeroOrder) ∧
      (Enqueue (Dequeue (enqueueList (initQueue C) os).1).2 o).1 = EnqueueResult.ok) ∧
    ((enqueueList (initQueue 4) [mkOrder 1, mkOrder 2, mkOrder 3, mkOrder 4]).2 =
        [EnqueueResult.ok, EnqueueResult.ok, EnqueueResult.ok, EnqueueResult.ok] ∧
      (Enqueue scenarioFull (mkOrder 5)).1 = EnqueueResult.queueFull ∧
      (Dequeue scenarioAfterFull).1 = some (mkOrder 1) ∧
      (Enqueue scenarioAfterDeq (mkOrder 5)).1 = EnqueueResult.ok ∧
      dequeueList scenarioAfterRetry 4 =
        [some (mkOrder 2), some (mkOrder 3), some (mkOrder 4), some (mkOrder 5)]) := by
  constructor
  · intro C os o hC hlen
    have hfill := enqueueList_fill C os os 0 (initQueue C)
      (initQueue_fillInv C os) rfl (by omega)
    rw [Nat.zero_add, hlen] at hfill
    have hcyc := fill_cycle C os (enqueueList (initQueue C) os).1 o hC hfill.2
    exact ⟨hfill.1, hcyc.1, hcyc.2.2.1, hcyc.2.2.2⟩
  · refine ⟨by decide, by decide, by decide, by decide, by decide⟩

/-- C2 counterexample: the claim quantifies over every capacity `C`, but
at capacity 1 the `(C+1)`-th (= 2nd) enqueue does not return QueueFull —
it succeeds, because the published sequence number of slot 0 equals the
next claim position. -/
theorem C2_capacity_bound_cex :
    (Enqueue (Enqueue (initQueue 1) (mkOrder 1)).2 (mkOrder 2)).1 ≠
      EnqueueResult.queueFull := by decide

theorem C2_capacity_bound_witness :
    2 ≤ 2 ∧
    ((∀ r ∈ (enqueueList (initQueue 2) [mkOrder 1, mkOrder 2]).2,
        r = EnqueueResult.ok) ∧
      (Enqueue (enqueueList (initQueue 2) [mkOrder 1, mkOrder 2]).1 (mkOrder 3)).1 =
        EnqueueResult.queueFull ∧
      (Dequeue (enqueueList (initQueue 2) [mkOrder 1, mkOrder 2]).1).1 =
        some (([mkOrder 1, mkOrder 2] : List Order).getD 0 zeroOrder) ∧
      (Enqueue (Dequeue (enqueueList (initQueue 2) [mkOrder 1, mkOrder 2]).1).2
        (mkOrder 3)).1 = EnqueueResult.ok) :=
  ⟨by norm_num, C2_capacity_bound.1 2 [mkOrder 1, mkOrder 2] (mkOrder 3) (by norm_num) rfl⟩

/-- C3: decode is a total inverse of encode on valid orders — field for
field — and the symbol-copy used by the writers produces exactly 8 bytes,
zero-padding instrument names shorter than 8 characters. -/
theorem C3_codec_roundtrip :
    (∀ o : Order, ValidOrder o → decode (encode o) = o) ∧
    (∀ name : List Nat, name.length ≤ 8 →
      (copySymbol name).length = 8 ∧
      copySymbol name = name ++ List.replicate (8 - name.length) 0) :=
  ⟨decode_encode, fun name h => ⟨copySymbol_length name, copySymbol_zeroPadded name h⟩⟩

theorem C3_codec_roundtrip_witness :
    ValidOrder (testSingleOrderValue 123456789) ∧
    decode (encode (testSingleOrderValue 123456789)) = testSingleOrderValue 123456789 ∧
    symKOHLI.length ≤ 8 ∧ (copySymbol symKOHLI).length = 8 ∧
    copySymbol symKOHLI = symKOHLI ++ List.replicate 3 0 :=
  ⟨by decide, C3_codec_roundtrip.1 _ (by decide), by decide,
    (C3_codec_roundtrip.2 symKOHLI (by decide)).1, by decide⟩

/-- C4: every enqueue call returns immediately with either success or the
QueueFull signal — it performs a single slot check, and on QueueFull it
leaves the queue untouched (no internal retry, spin or sleep; in this
embedding a blocking/retrying enqueue could not be a plain total function
whose failure output equals its input state); each round of the in-repo
producers' own retry loops (`producerRetry`, the callers' spin) just calls
the unchanged core again. -/
theorem C4_enqueue_nonblocking :
    ∀ (q : Queue) (o : Order),
      ((Enqueue q o).1 = EnqueueResult.ok ∨ (Enqueue q o).1 = EnqueueResult.queueFull) ∧
      ((Enqueue q o).1 = EnqueueResult.queueFull → (Enqueue q o).2 = q) ∧
      (∀ n : Nat, (Enqueue q o).1 = EnqueueResult.queueFull →
        producerRetry (n + 1) q o = producerRetry n q o) := by
  intro q o
  have hcase : Enqueue q o = (EnqueueResult.ok,
      { q with
        tail := q.tail + 1
        seqs := fun i => if i = q.tail % q.cap then q.tail + 1 else q.seqs i
        vals := fun i => if i = q.tail % q.cap then o else q.vals i }) ∨
      Enqueue q o = (EnqueueResult.queueFull, q) := by
    rw [Enqueue]
    by_cases hc : q.seqs (q.tail % q.cap) = q.tail
    · rw [if_pos hc]; exact Or.inl rfl
    · rw [if_neg hc]; exact Or.inr rfl
  rcases hcase with h | h
  · refine ⟨by rw [h]; exact Or.inl rfl, ?_, ?_⟩
    · intro hfull
      rw [h] at hfull
      simp at hfull
    · intro n hfull
      rw [h] at hfull
      simp at hfull
  · refine ⟨by rw [h]; exact Or.inr rfl, by rw [h]; intro _; rfl, ?_⟩
    intro n _
    simp only [producerRetry, h]

theorem C4_enqueue_nonblocking_witness :
    ((Enqueue scenarioFull (mkOrder 9)).1 = EnqueueResult.ok ∨
      (Enqueue scenarioFull (mkOrder 9)).1 = EnqueueResult.queueFull) ∧
    (Enqueue scenarioFull (mkOrder 9)).2 = scenarioFull ∧
    producerRetry 3 scenarioFull (mkOrder 9) = producerRetry 2 scenarioFull (mkOrder 9) :=
  ⟨(C4_enqueue_nonblocking scenarioFull (mkOrder 9)).1,
    (C4_enqueue_nonblocking scenarioFull (mkOrder 9)).2.1 (by decide),
    (C4_enqueue_nonblocking scenarioFull (mkOrder 9)).2.2 2 (by decide)⟩

/-- C5: open fails with NotFound exactly when no file exists at the path,
fails with FormatMismatch exactly when a file exists but its header does
not validate (absent/unrecognised magic or version, or mismatched
capacity/slot size), and the two error kinds are distinct values the
caller can tell apart. -/
theorem C5_open_errors :
    ∀ (fs : FileSys) (path : String),
      (OpenQueue fs path = Except.error OpenError.NotFound ↔ fs path = none) ∧
      (OpenQueue fs path = Except.error OpenError.FormatMismatch ↔
        ∃ hq, fs path = some hq ∧ validHeader hq.1 = false) ∧
      OpenError.NotFound ≠ OpenError.FormatMismatch := by
  intro fs path
  refine ⟨?_, ?_, by decide⟩
  · cases hfs : fs path with
    | none => simp [OpenQueue, hfs]
    | some hq =>
        rw [OpenQueue, hfs]
        by_cases hv : validHeader hq.1 <;> simp [hv]
  · cases hfs : fs path with
    | none => simp [OpenQueue, hfs]
    | some hq =>
        rw [OpenQueue, hfs]
        by_cases hv : validHeader hq.1 <;> simp [hv]

theorem C5_open_errors_witness :
    (OpenQueue (fun _ => none) "/tmp/sex" = Except.error OpenError.NotFound ↔
      (fun _ : String => (none : Option (Header × Queue))) "/tmp/sex" = none) ∧
    OpenError.NotFound ≠ OpenError.FormatMismatch :=
  ⟨(C5_open_errors (fun _ => none) "/tmp/sex").1,
    (C5_open_errors (fun _ => none) "/tmp/sex").2.2⟩

/-- C6 counterexample: the creation operation's call sites fix one
parameter (the path), not the two of the spec's `create(path, capacity)`
signature. -/
theorem C6_create_signature_cex : CreateQueueArity ≠ specCreateArity := by decide

/-- C6 (amended): queue creation takes only the path — its arity is 1 —
and every successfully created queue has the fixed built-in capacity,
independent of any caller input; on failure it reports an error
(`AlreadyExists`/`IOError`). -/
theorem C6_create_signature :
    CreateQueueArity = 1 ∧
    ∀ (fs : FileSys) (path : String) (q : Queue),
      CreateQueue fs path = Except.ok q → q.cap = QUEUE_CAPACITY := by
  refine ⟨rfl, ?_⟩
  intro fs path q h
  rw [CreateQueue] at h
  cases hfs : fs path with
  | some hq =>
      rw [hfs] at h
      exact absurd h (by simp)
  | none =>
      rw [hfs] at h
      have hq : initQueue QUEUE_CAPACITY = q := by
        simpa using h
      rw [← hq]
      rfl

theorem C6_create_signature_witness :
    CreateQueue (fun _ => none) "/tmp/sex" = Except.ok (initQueue QUEUE_CAPACITY) ∧
    (initQueue QUEUE_CAPACITY).cap = QUEUE_CAPACITY :=
  ⟨rfl, C6_create_signature.2 (fun _ => none) "/tmp/sex" (initQueue QUEUE_CAPACITY) rfl⟩

theorem copySymbol_isZeroPadded (name : List Nat) (h : name.length ≤ 8) :
    ZeroPadded8 (copySymbol name) :=
  ⟨name, h, copySymbol_zeroPadded name h⟩

theorem batchSymbols_getD_len (j : Nat) : (batchSymbols.getD j []).length ≤ 8 := by
  match j with
  | 0 => decide
  | 1 => decide
  | 2 => decide
  | n + 3 => simp [batchSymbols, List.getD]

/-- C7: every write site of orders in the repository fills the symbol
field with exactly 8 bytes, zero-padding instrument names shorter than
8 characters — the `[8]byte{'K','O','H','L','I',0,0,0}` literals of
`testSingleOrder` and `part_000`, the copy loops of `testBatch` and
`testContinuousStream` over their symbol slices, and the numeric zero
value (eight zero bytes, the padding of the empty name) that `part_001`
and `perf_cont.go` assign. -/
theorem C7_symbol_zero_padded :
    (∀ now : Nat, ZeroPadded8 (testSingleOrderValue now).Symbol ∧
      (testSingleOrderValue now).Symbol.length = 8) ∧
    (∀ (clock : Nat → Nat) (k : Nat), ZeroPadded8 (part000Order clock k).Symbol ∧
      (part000Order clock k).Symbol.length = 8) ∧
    (∀ (clock : Nat → Nat) (k : Nat), ZeroPadded8 (part001Order clock k).Symbol ∧
      (part001Order clock k).Symbol.length = 8) ∧
    (∀ (clock : Nat → Nat) (k : Nat), ZeroPadded8 (perfContOrder clock k).Symbol ∧
      (perfContOrder clock k).Symbol.length = 8) ∧
    (∀ (clock : Nat → Nat) (i : Nat), ZeroPadded8 (testBatchOrder clock i).Symbol ∧
      (testBatchOrder clock i).Symbol.length = 8) ∧
    (∀ name ∈ streamSymbols, ZeroPadded8 (copySymbol name) ∧
      (copySymbol name).length = 8) := by
  refine ⟨?_, ?_, ?_, ?_, ?_, ?_⟩
  · intro now
    exact ⟨⟨symKOHLI, by decide, rfl⟩, rfl⟩
  · intro clock k
    exact ⟨⟨symKOHLI, by decide, rfl⟩, rfl⟩
  · intro clock k
    exact ⟨⟨[], by decide, rfl⟩, rfl⟩
  · intro clock k
    exact ⟨⟨[], by decide, rfl⟩, rfl⟩
  · intro clock i
    exact ⟨copySymbol_isZeroPadded _ (batchSymbols_getD_len (i % 3)), copySymbol_length _⟩
  · intro name h
    fin_cases h <;> exact ⟨copySymbol_isZeroPadded _ (by decide), copySymbol_length _⟩

theorem C7_symbol_zero_padded_witness :
    ZeroPadded8 (part001Order (fun n => n) 0).Symbol ∧
    (testBatchOrder (fun n => n) 1).Symbol.length = 8 :=
  ⟨(C7_symbol_zero_padded.2.2.1 (fun n => n) 0).1,
    (C7_symbol_zero_padded.2.2.2.2.1 (fun n => n) 1).2⟩

/-- C8: in every producer in the repository the OrderID of successive
orders strictly increases over the producer's lifetime — `part_000`,
`part_001` and `perf_cont.go` stamp the incremented `count`, the stream
harness its success counter, and `testBatch` its loop index (so even with
abandoned orders the successfully enqueued ids remain strictly
increasing) — while ids are not globally unique across producers (two
producers both start at id 1). -/
theorem C8_orderID_monotone :
    (∀ (clock : Nat → Nat) (k m : Nat), k < m →
      (part000Order clock k).OrderID < (part000Order clock m).OrderID) ∧
    (∀ (clock : Nat → Nat) (k m : Nat), k < m →
      (part001Order clock k).OrderID < (part001Order clock m).OrderID) ∧
    (∀ (clock : Nat → Nat) (k m : Nat), k < m →
      (perfContOrder clock k).OrderID < (perfContOrder clock m).OrderID) ∧
    (∀ k m : Nat, k < m → streamOrderID k < streamOrderID m) ∧
    (∀ (clock : Nat → Nat) (ok : Nat → Nat → Bool),
      ((batchSuccessIds ok).map fun i => (testBatchOrder clock i).OrderID).Pairwise (· < ·)) ∧
    (∀ c0 c1 : Nat → Nat, (part000Order c0 0).OrderID = (part001Order c1 0).OrderID) := by
  refine ⟨?_, ?_, ?_, ?_, ?_, ?_⟩
  · intro clock k m h
    show k + 1 < m + 1
    omega
  · intro clock k m h
    show k + 1 < m + 1
    omega
  · intro clock k m h
    show k + 1 < m + 1
    omega
  · intro k m h
    show k + 1 < m + 1
    omega
  · intro clock ok
    rw [List.pairwise_map]
    exact List.Pairwise.sublist (List.filter_sublist _) (List.pairwise_lt_range' 1 100000)
  · intro c0 c1
    rfl

theorem C8_orderID_monotone_witness :
    0 < 1 ∧ (part000Order (fun n => n) 0).OrderID < (part000Order (fun n => n) 1).OrderID :=
  ⟨by decide, C8_orderID_monotone.1 (fun n => n) 0 1 (by decide)⟩

theorem batchTryAux_attempts (ok : Nat → Bool) (maxR : Nat) :
    ∀ (fuel attempt : Nat), (batchTryAux ok maxR attempt fuel).2.1 ≤ attempt + fuel + 1 := by
  intro fuel
  induction fuel with
  | zero =>
      intro attempt
      simp only [batchTryAux]
      split <;> simp
  | succ fuel ih =>
      intro attempt
      simp only [batchTryAux]
      split
      · dsimp only
        omega
      · dsimp only
        have := ih (attempt + 1)
        omega

/-- C9: `testBatch`'s per-order retry loop retries an order that receives
QueueFull at most 3 times, sleeping `2^retries` milliseconds before
each retry (2, 4, 8 ms), and abandons the order for good after the third
failed retry, so the set of successfully enqueued ids can be a strict
subset of the 100,000 ids generated. -/
theorem C9_batch_retry_policy :
    batchTry (fun _ => false) = (false, 4, [2, 4, 8]) ∧
    (∀ ok : Nat → Bool, (batchTry ok).2.1 ≤ 4) ∧
    (∀ ok : Nat → Bool, ok 0 = true → batchTry ok = (true, 1, [])) ∧
    (∀ ok : Nat → Bool, (batchTry ok).2.2 ∈ [([] : List Nat), [2], [2, 4], [2, 4, 8]]) ∧
    (∀ ok : Nat → Nat → Bool, ∀ i ∈ batchSuccessIds ok, i ∈ List.range' 1 100000) ∧
    (∃ ok : Nat → Nat → Bool, 42 ∈ List.range' 1 100000 ∧ 42 ∉ batchSuccessIds ok) := by
  refine ⟨by decide, ?_, ?_, ?_, ?_, ?_⟩
  · intro ok
    have h := batchTryAux_attempts ok 3 3 0
    simpa [batchTry] using h
  · intro ok h
    simp [batchTry, batchTryAux, h]
  · intro ok
    cases h0 : ok 0 <;> cases h1 : ok 1 <;> cases h2 : ok 2 <;> cases h3 : ok 3 <;>
      simp [batchTry, batchTryAux, h0, h1, h2, h3]
  · intro ok i hi
    exact (List.mem_filter.mp hi).1
  · refine ⟨fun i _ => decide (i ≠ 42), by rw [List.mem_range'_1]; omega, ?_⟩
    intro hmem
    have h := (List.mem_filter.mp hmem).2
    exact absurd h (by decide)

theorem C9_batch_retry_policy_witness :
    (fun _ : Nat => true) 0 = true ∧ batchTry (fun _ => true) = (true, 1, []) ∧
    (batchTry (fun _ => false)).2.1 ≤ 4 ∧
    (batchTry (fun _ => false)).2.2 ∈ [([] : List Nat), [2], [2, 4], [2, 4, 8]] :=
  ⟨rfl, C9_batch_retry_policy.2.2.1 (fun _ => true) rfl,
    C9_batch_retry_policy.2.1 (fun _ => false),
    C9_batch_retry_policy.2.2.2.1 (fun _ => false)⟩

theorem part000Ts_eq (clock : Nat → Nat) (k : Nat) :
    part000Ts clock k = clock (10000 * (k / 10000)) := by
  induction k with
  | zero => simp [part000Ts]
  | succ k ih =>
      rw [part000Ts]
      by_cases h : (k + 1) % 10000 = 0
      · rw [if_pos h]
        congr 1
        omega
      · rw [if_neg h, ih]
        congr 1
        omega

/-- C10: `part_000` re-reads the clock only on iterations whose update
counter is a multiple of 10000, so all orders of one 10000-iteration
block carry the identical timestamp (the reading taken at the block's
first iteration); for a monotone clock the per-order timestamps are
non-decreasing, and they are not strictly increasing — consecutive
orders of a block have equal timestamps while their ids differ. -/
theorem C10_timestamp_blocks :
    (∀ (clock : Nat → Nat) (k m : Nat), k / 10000 = m / 10000 →
      (part000Order clock k).Timestamp = (part000Order clock m).Timestamp) ∧
    (∀ clock : Nat → Nat, Monotone clock → ∀ k m : Nat, k ≤ m →
      (part000Order clock k).Timestamp ≤ (part000Order clock m).Timestamp) ∧
    (∀ clock : Nat → Nat,
      (part000Order clock 0).Timestamp = (part000Order clock 1).Timestamp ∧
      (part000Order clock 0).OrderID < (part000Order clock 1).OrderID) := by
  refine ⟨?_, ?_, ?_⟩
  · intro clock k m h
    show part000Ts clock k = part000Ts clock m
    rw [part000Ts_eq, part000Ts_eq, h]
  · intro clock hmono k m h
    show part000Ts clock k ≤ part000Ts clock m
    rw [part000Ts_eq, part000Ts_eq]
    exact hmono (by omega : 10000 * (k / 10000) ≤ 10000 * (m / 10000))
  · intro clock
    constructor
    · show part000Ts clock 0 = part000Ts clock 1
      rw [part000Ts_eq, part000Ts_eq]
    · show 0 + 1 < 1 + 1
      omega

theorem C10_timestamp_blocks_witness :
    (1 : Nat) / 10000 = (2 : Nat) / 10000 ∧
    (part000Order (fun n => n) 1).Timestamp = (part000Order (fun n => n) 2).Timestamp ∧
    Monotone (fun n : Nat => n) ∧
    (part000Order (fun n => n) 1).Timestamp ≤ (part000Order (fun n => n) 5).Timestamp :=
  ⟨by norm_num, C10_timestamp_blocks.1 (fun n => n) 1 2 (by norm_num),
    monotone_id, C10_timestamp_blocks.2.1 (fun n => n) monotone_id 1 5 (by norm_num)⟩

end OmsQueue
